import Mathlib

/-!
Shallow embedding of the version-control diff engine of ciocheck
(src/ciocheck/vcs.py), together with theorems settling a list of claims
about its specification.  Python strings are modelled as Lean String
values, Python lists and dicts as Lean lists and association lists
(Python dicts preserve insertion order), and Python exceptions as
Except String results.
-/

namespace Ciocheck

/-- Single quote character, used to build the error messages of vcs.py. -/
def sq : String := String.singleton (Char.ofNat 39)

/-- Helper for pySplitChar: models the scanning loop of Python str.split
with a one-character separator, keeping empty tokens. -/
def splitChAux (sep : Char) : List Char → List Char → List (List Char)
  | [], acc => [acc.reverse]
  | c :: cs, acc =>
    if c = sep then acc.reverse :: splitChAux sep cs []
    else splitChAux sep cs (c :: acc)

/-- Models Python str.split(sep) for a one-character separator sep. -/
def pySplitChar (s : String) (sep : Char) : List String :=
  (splitChAux sep s.data []).map String.mk

/-- Helper for pySplitAtAt: models Python str.split with a two-character
separator (non-overlapping, left to right, keeping empty tokens). -/
def splitPairAux (c1 c2 : Char) : List Char → List Char → List (List Char)
  | [], acc => [acc.reverse]
  | [c], acc => [(c :: acc).reverse]
  | c :: cp :: cs, acc =>
    if c = c1 ∧ cp = c2 then acc.reverse :: splitPairAux c1 c2 cs []
    else splitPairAux c1 c2 (cp :: cs) (c :: acc)

/-- Models Python line.split for the separator of two at signs, as used
in GitDiffTool._parse_hunk_line. -/
def pySplitAtAt (s : String) : List String :=
  (splitPairAux '@' '@' s.data []).map String.mk

/-- Models Python str.startswith. -/
def pyStartsWith (s pre : String) : Bool :=
  pre.data.isPrefixOf s.data

/-- Containment of one character list in another. -/
def isInfixL (pat : List Char) : List Char → Bool
  | [] => pat.isEmpty
  | c :: cs => pat.isPrefixOf (c :: cs) || isInfixL pat cs

/-- Models the Python substring containment test (pat in s). -/
def containsSub (s pat : String) : Bool :=
  isInfixL pat.data s.data

instance {ε α : Type} [DecidableEq ε] [DecidableEq α] :
    DecidableEq (Except ε α) := fun x y =>
  match x, y with
  | Except.ok a, Except.ok b =>
    if h : a = b then isTrue (by rw [h])
    else isFalse (fun hh => by injection hh; contradiction)
  | Except.error a, Except.error b =>
    if h : a = b then isTrue (by rw [h])
    else isFalse (fun hh => by injection hh; contradiction)
  | Except.ok _, Except.error _ => isFalse (fun hh => Except.noConfusion hh)
  | Except.error _, Except.ok _ => isFalse (fun hh => Except.noConfusion hh)

/-- Models posixpath.join with two arguments, as used via os.path.join. -/
def osPathJoin (a b : String) : String :=
  if pyStartsWith b "/" then b
  else if a = "" then b
  else if a.data.getLast? = some '/' then a ++ b
  else a ++ "/" ++ b

/-- Value of a run of decimal digits, as computed by Python int() on a
nonempty digit string. -/
def digitsToNat (g : String) : Nat :=
  g.data.foldl (fun acc c => acc * 10 + (c.toNat - 48)) 0

/-- Lookup in an association list modelling a Python dict (keys are
unique in all reachable states, so the first match is the entry). -/
def alookup {β : Type} : List (String × β) → String → Option β
  | [], _ => none
  | (k, v) :: rest, key => if key = k then some v else alookup rest key

/-- Models Python dict assignment d[k] = v: update in place if the key
is present, else append a new entry. -/
def dictInsert {β : Type} (d : List (String × β)) (k : String) (v : β) :
    List (String × β) :=
  if (alookup d k).isSome then
    d.map (fun e => if e.1 = k then (k, v) else e)
  else d ++ [(k, v)]

/-- Models source_dict[src_path].append(line) in _parse_source_sections. -/
def appendLine (d : List (String × List String)) (k : String) (l : String) :
    List (String × List String) :=
  d.map (fun e => if e.1 = k then (e.1, e.2 ++ [l]) else e)

/-- Models re.findall of the pattern HUNK_LINE_RE, a plus sign followed
by a captured possibly-empty digit run: every plus sign yields one
match whose group is the maximal digit run following it, and scanning
resumes after that run.  The accumulator holds the reversed digit run
of a match in progress. -/
def findPlusAux : List Char → Option (List Char) → List String
  | [], none => []
  | [], some acc => [String.mk acc.reverse]
  | c :: cs, none =>
    if c = '+' then findPlusAux cs (some []) else findPlusAux cs none
  | c :: cs, some acc =>
    if c.isDigit then findPlusAux cs (some (c :: acc))
    else
      String.mk acc.reverse ::
        (if c = '+' then findPlusAux cs (some []) else findPlusAux cs none)

/-- Digit groups found by HUNK_LINE_RE in a string. -/
def findPlusGroups (s : String) : List String :=
  findPlusAux s.data none

/-- Strip an exact character-list prefix, returning the remainder. -/
def stripL : List Char → List Char → Option (List Char)
  | [], s => some s
  | _ :: _, [] => none
  | p :: ps, c :: cs => if p = c then stripL ps cs else none

/-- Consume one optional double quote (the greedy optional quote of
SRC_FILE_RE; deterministic because the character required next by the
pattern is never a quote). -/
def stripOptQuote : List Char → List Char
  | c :: cs => if c = '"' then cs else c :: cs
  | [] => []

/-- Match the tail of SRC_FILE_RE at a given position: one optional
quote, a space, one optional quote, then the letter b and a slash.
Returns the remainder after the slash. -/
def srcTailMatch (s : List Char) : Option (List Char) :=
  match stripOptQuote s with
  | ' ' :: s2 =>
    match stripOptQuote s2 with
    | 'b' :: '/' :: s4 => some s4
    | _ => none
  | _ => none

/-- Models the greedy dot-star of SRC_FILE_RE: choose the rightmost
split point at which the tail pattern matches (the dot does not match a
newline, so the search does not cross one). -/
def srcTailSearch : List Char → Option (List Char)
  | [] => srcTailMatch []
  | c :: cs =>
    if c = '\n' then srcTailMatch (c :: cs)
    else
      match srcTailSearch cs with
      | some r => some r
      | none => srcTailMatch (c :: cs)

/-- Models re.findall with SRC_FILE_RE (anchored at the line start): on
success the captured group is the maximal run, after the final matched
b and slash, of characters that are not a space, a quote or a newline. -/
def matchSrcFile (line : String) : Option String :=
  match stripL "diff --git ".data line.data with
  | none => none
  | some r1 =>
    match stripL "a/".data (stripOptQuote r1) with
    | none => none
    | some r3 =>
      match srcTailSearch r3 with
      | none => none
      | some r4 =>
        some (String.mk (r4.takeWhile
          (fun c => !(c == ' ' || c == '"' || c == '\n'))))

/-- Models re.findall with MERGE_CONFLICT_RE (anchored at the line
start): the captured group is the maximal run of characters that are
not a space or a newline after the literal header. -/
def matchMergeConflict (line : String) : Option String :=
  match stripL "diff --cc ".data line.data with
  | none => none
  | some r =>
    some (String.mk (r.takeWhile (fun c => !(c == ' ' || c == '\n'))))

/-- Models GitDiffTool._parse_source_line. -/
def parseSourceLine (line : String) : Except String String :=
  if containsSub line "--git" then
    match matchSrcFile line with
    | some p => Except.ok p
    | none =>
      Except.error ("Could not parse source path in line " ++ sq ++ line ++ sq)
  else if containsSub line "--cc" then
    match matchMergeConflict line with
    | some p => Except.ok p
    | none =>
      Except.error ("Could not parse source path in line " ++ sq ++ line ++ sq)
  else
    Except.error
      ("Do not recognize format of source in line " ++ sq ++ line ++ sq)

/-- Models GitDiffTool._parse_hunk_line. -/
def parseHunkLine (line : String) : Except String Nat :=
  match pySplitAtAt line with
  | _ :: hunkInfo :: _ =>
    match findPlusGroups hunkInfo with
    | [g] =>
      if g = "" then
        Except.error ("Could not parse " ++ sq ++ g ++ sq ++ " as a line number")
      else Except.ok (digitsToNat g)
    | _ =>
      Except.error ("Could not find start of hunk in line " ++ sq ++ line ++ sq)
  | _ => Except.error ("Could not parse hunk in line " ++ sq ++ line ++ sq)

/-- State of the scanning loop of _parse_source_sections. -/
structure SectState where
  dict : List (String × List String)
  srcPath : Option String
  foundHunk : Bool
deriving Repr, DecidableEq

/-- Header test of _parse_source_sections: a line that starts a new
source file section. -/
def isHeaderLine (line : String) : Bool :=
  pyStartsWith line "diff --git" || pyStartsWith line "diff --cc"

/-- One iteration of the loop of GitDiffTool._parse_source_sections. -/
def sectStep (s : SectState) (line : String) : Except String SectState :=
  if isHeaderLine line then
    match parseSourceLine line with
    | Except.error e => Except.error e
    | Except.ok p =>
      Except.ok
        { dict := if (alookup s.dict p).isSome then s.dict
                  else s.dict ++ [(p, [])]
          srcPath := some p
          foundHunk := false }
  else if s.foundHunk || pyStartsWith line "@@" then
    match s.srcPath with
    | some p =>
      Except.ok
        { dict := appendLine s.dict p line
          srcPath := some p
          foundHunk := true }
    | none =>
      if pyStartsWith line "@@" then
        Except.error ("Hunk has no source file: " ++ sq ++ line ++ sq)
      else Except.ok { s with foundHunk := true }
  else Except.ok s

/-- Iterate sectStep over the lines of the diff text. -/
def sectionsGo : List String → SectState → Except String SectState
  | [], s => Except.ok s
  | l :: ls, s =>
    match sectStep s l with
    | Except.error e => Except.error e
    | Except.ok s2 => sectionsGo ls s2

/-- Initial state of the sectioning loop. -/
def sectInit : SectState :=
  { dict := [], srcPath := none, foundHunk := false }

/-- Models GitDiffTool._parse_source_sections on an explicit line list. -/
def parseSourceSectionsL (lines : List String) :
    Except String (List (String × List String)) :=
  match sectionsGo lines sectInit with
  | Except.error e => Except.error e
  | Except.ok s => Except.ok s.dict

/-- Models GitDiffTool._parse_source_sections. -/
def parseSourceSections (diffStr : String) :
    Except String (List (String × List String)) :=
  parseSourceSectionsL (pySplitChar diffStr '\n')

/-- State of the loop of GitDiffTool._parse_lines. -/
structure LineState where
  added : List Nat
  deleted : List Nat
  curNew : Option Nat
  curOld : Option Nat
deriving Repr, DecidableEq

/-- One iteration of the loop of GitDiffTool._parse_lines. -/
def lineStep (s : LineState) (line : String) : Except String LineState :=
  if pyStartsWith line "@@" then
    match parseHunkLine line with
    | Except.error e => Except.error e
    | Except.ok n => Except.ok { s with curNew := some n, curOld := some n }
  else if pyStartsWith line "+" then
    match s.curNew with
    | some n =>
      Except.ok { s with added := s.added ++ [n], curNew := some (n + 1) }
    | none => Except.ok s
  else if pyStartsWith line "-" then
    match s.curOld with
    | some n =>
      Except.ok { s with deleted := s.deleted ++ [n], curOld := some (n + 1) }
    | none => Except.ok s
  else
    Except.ok { s with curNew := s.curNew.map (· + 1),
                       curOld := s.curOld.map (· + 1) }

/-- Iterate lineStep over the retained lines of one source section. -/
def linesGo : List String → LineState → Except String LineState
  | [], s => Except.ok s
  | l :: ls, s =>
    match lineStep s l with
    | Except.error e => Except.error e
    | Except.ok s2 => linesGo ls s2

/-- Initial state of the line-accounting loop. -/
def lineInit : LineState :=
  { added := [], deleted := [], curNew := none, curOld := none }

/-- Models GitDiffTool._parse_lines. -/
def parseLines (diffLines : List String) :
    Except String (List Nat × List Nat) :=
  match linesGo diffLines lineInit with
  | Except.error e => Except.error e
  | Except.ok s => Except.ok (s.added, s.deleted)

/-- Lexicographic comparison of character lists by code point, the
order Python uses to compare strings. -/
def strLtB : List Char → List Char → Bool
  | [], [] => false
  | [], _ :: _ => true
  | _ :: _, [] => false
  | a :: as, b :: bs =>
    if a.toNat < b.toNat then true
    else if b.toNat < a.toNat then false
    else strLtB as bs

/-- Models the Python string comparison a < b. -/
def pyStrLt (a b : String) : Bool :=
  strLtB a.data b.data

/-- Insert a key-value pair into a list sorted by key. -/
def insPair {β : Type} (x : String × β) :
    List (String × β) → List (String × β)
  | [] => [x]
  | y :: ys => if pyStrLt x.1 y.1 then x :: y :: ys else y :: insPair x ys

/-- Modelled from the spec: make_sorted_dict from ciocheck.utils is not
under src; the spec describes it as materializing a dict into a
structure ordered by key, which insertion sort by key implements. -/
def makeSortedDict {β : Type} (d : List (String × β)) : List (String × β) :=
  d.foldr insPair []

/-- Loop body of GitDiffTool._parse_diff_str: parse each section and
assign the result into the dict under the re-anchored path. -/
def buildDiffDict (topLevel : String) :
    List (String × List String) → List (String × (List Nat × List Nat)) →
    Except String (List (String × (List Nat × List Nat)))
  | [], acc => Except.ok acc
  | (src, ls) :: rest, acc =>
    match parseLines ls with
    | Except.error e => Except.error e
    | Except.ok pr =>
      buildDiffDict topLevel rest (dictInsert acc (osPathJoin topLevel src) pr)

/-- Models GitDiffTool._parse_diff_str, with the resolved top level of
the provider as a parameter. -/
def parseDiffStr (topLevel diffStr : String) :
    Except String (List (String × (List Nat × List Nat))) :=
  match parseSourceSections diffStr with
  | Except.error e => Except.error e
  | Except.ok secs =>
    match buildDiffDict topLevel secs [] with
    | Except.error e => Except.error e
    | Except.ok d => Except.ok (makeSortedDict d)

/-- Insert a string into a sorted list of strings. -/
def insStr (x : String) : List String → List String
  | [] => [x]
  | y :: ys => if pyStrLt x y then x :: y :: ys else y :: insStr x ys

/-- Sort a list of strings in ascending order. -/
def sortStrings (l : List String) : List String :=
  l.foldr insStr []

/-- Models the files-only branch of GitDiffTool._git_run_helper: split
the name-only output on the NUL separator, drop empty tokens and
duplicates (Python set semantics), sort, re-anchor each name to the top
level, and retain only paths under the queried scope path. -/
def gitFilesQuery (topLevel scopePath output : String) : List String :=
  ((sortStrings
      (((pySplitChar output (Char.ofNat 0)).filter (fun t => t != "")).dedup)).map
    (osPathJoin topLevel)).filter (fun i => pyStartsWith i scopePath)

/-- Provider variants tried by DiffTool, in the source order of TOOLS. -/
inductive VcsKind where
  | git
  | hg
  | noVcs
deriving DecidableEq, Repr

/-- Priority list of provider classes (DiffTool.TOOLS). -/
def diffToolOrder : List VcsKind := [VcsKind.git, VcsKind.hg, VcsKind.noVcs]

/-- Result of is_repo for each provider variant: the git probe depends
on the external command runner and is a parameter; HgDiffTool reports
False; NoDiffTool reports True. -/
def toolIsRepo (gitIsRepo : Bool) : VcsKind → Bool
  | VcsKind.git => gitIsRepo
  | VcsKind.hg => false
  | VcsKind.noVcs => true

/-- Models the provider-selection loop of DiffTool for one path: the
first tool whose is_repo probe succeeds is kept. -/
def selectDiffTool (gitIsRepo : Bool) : Option VcsKind :=
  diffToolOrder.find? (toolIsRepo gitIsRepo)

/-- Models NoDiffTool._get_files_helper with lines=True.  The discovered
files come from the external get_files collaborator and are passed as a
parameter.  Every file maps to the sentinel pair of the added list
holding only -1 and the synthetic deleted range 0..99999. -/
def noDiffFileLinesHelper (paths : List String) :
    List (String × (List Int × List Nat)) :=
  paths.foldl (fun acc p => dictInsert acc p ([(-1 : Int)], List.range 100000)) []

/-- Models NoDiffTool.commited_file_lines. -/
def noDiffCommitedFileLines (paths : List String) :
    List (String × (List Int × List Nat)) :=
  noDiffFileLinesHelper paths

/-- Models NoDiffTool.staged_file_lines. -/
def noDiffStagedFileLines (paths : List String) :
    List (String × (List Int × List Nat)) :=
  noDiffFileLinesHelper paths

/-- Models NoDiffTool.unstaged_file_lines. -/
def noDiffUnstagedFileLines (paths : List String) :
    List (String × (List Int × List Nat)) :=
  noDiffFileLinesHelper paths

/-- Head property of a retained section line list: if it is nonempty its
first element is a hunk marker line. -/
def headOk (ls : List String) : Prop :=
  ∀ hd tl, ls = hd :: tl → pyStartsWith hd "@@" = true

/-- Invariant of the sectioning loop state: keys are unique, every
retained line list starts with a hunk marker, a set hunk flag means the
current source entry is nonempty, and a current source path always has
an entry. -/
def SectInv (s : SectState) : Prop :=
  (s.dict.map Prod.fst).Nodup ∧
  (∀ e ∈ s.dict, headOk e.2) ∧
  (s.foundHunk = true →
    ∃ q e, s.srcPath = some q ∧ alookup s.dict q = some e ∧ e ≠ []) ∧
  (∀ q, s.srcPath = some q → (alookup s.dict q).isSome = true)

/-- Monotonicity invariant of the line-accounting state inside one
hunk: both recorded lists are strictly increasing and bounded by the
running counters. -/
def MonoInv (s : LineState) : Prop :=
  List.Chain' (fun a b => a < b) s.added ∧
  List.Chain' (fun a b => a < b) s.deleted ∧
  (∀ x ∈ s.added, ∀ m, s.curNew = some m → x < m) ∧
  (∀ x ∈ s.deleted, ∀ m, s.curOld = some m → x < m)

/-- Diff text of spec test 6. -/
def spec6Text : String :=
  "diff --git a/foo.py b/foo.py\nindex 111..222 100644\n--- a/foo.py\n+++ b/foo.py\n@@ -1,3 +1,4 @@\n line1\n+line2\n line3\n-line4\n line5"

/-- Diff text with two hunks whose start lines decrease. -/
def hunkOrderText : String :=
  "diff --git a/f b/f\n@@ -5,1 +5,1 @@\n+x\n@@ -1,1 +1,1 @@\n+y"

/-- Diff text with two hunks in one file, one added line in each. -/
def multiHunkText : String :=
  "diff --git a/f.py b/f.py\n@@ -1,3 +1,4 @@\n+a\n@@ -10,2 +11,3 @@\n+b"

/-- Diff text in which the same path is named by two headers and the
first of its sections has no hunk. -/
def dupPathText : String :=
  "diff --git a/p b/p\ndiff --git a/p b/p\n@@ -1,1 +1,1 @@\n+x"

/-- Diff text in which the same path is named by two headers with hunks
in both of its sections, separated by a section of another path. -/
def dupPathHunksText : String :=
  "diff --git a/p b/p\n@@ -1,1 +1,2 @@\n+a\ndiff --git a/q b/q\n@@ -1,1 +1,1 @@\n+x\ndiff --git a/p b/p\n@@ -5,1 +5,2 @@\n+b"

/-- NUL separator used by the name-only git diff output. -/
def nulSep : String := String.singleton (Char.ofNat 0)

/-- Prefix membership characterization of pyStartsWith. -/
theorem pyStartsWith_iff {l p : String} :
    pyStartsWith l p = true ↔ ∃ t, p.data ++ t = l.data := by
  unfold pyStartsWith
  rw [List.isPrefixOf_iff_prefix]
  exact Iff.rfl

/-- Two literal prefixes with different first characters cannot both
start the same line. -/
theorem pyStartsWith_disjoint {l p1 p2 : String} {c1 c2 : Char}
    {r1 r2 : List Char} (h1 : p1.data = c1 :: r1) (h2 : p2.data = c2 :: r2)
    (hne : c1 ≠ c2) (h : pyStartsWith l p1 = true) :
    pyStartsWith l p2 = false := by
  cases hb : pyStartsWith l p2 with
  | false => rfl
  | true =>
    exfalso
    rw [pyStartsWith_iff] at h hb
    obtain ⟨t, ht⟩ := h
    obtain ⟨u, hu⟩ := hb
    rw [h1] at ht
    rw [h2] at hu
    rw [← ht] at hu
    simp only [List.cons_append, List.cons.injEq] at hu
    exact hne hu.1.symm

/-- A line starting with a plus does not carry a hunk marker. -/
theorem plus_not_atat {l : String} (h : pyStartsWith l "+" = true) :
    pyStartsWith l "@@" = false :=
  pyStartsWith_disjoint (by decide : ("+" : String).data = '+' :: [])
    (by decide : ("@@" : String).data = '@' :: ['@']) (by decide) h

/-- A line starting with a minus does not carry a hunk marker. -/
theorem minus_not_atat {l : String} (h : pyStartsWith l "-" = true) :
    pyStartsWith l "@@" = false :=
  pyStartsWith_disjoint (by decide : ("-" : String).data = '-' :: [])
    (by decide : ("@@" : String).data = '@' :: ['@']) (by decide) h

/-- A line starting with a minus does not start with a plus. -/
theorem minus_not_plus {l : String} (h : pyStartsWith l "-" = true) :
    pyStartsWith l "+" = false :=
  pyStartsWith_disjoint (by decide : ("-" : String).data = '-' :: [])
    (by decide : ("+" : String).data = '+' :: []) (by decide) h

/-- A line carrying a hunk marker does not start with a plus. -/
theorem atat_not_plus {l : String} (h : pyStartsWith l "@@" = true) :
    pyStartsWith l "+" = false :=
  pyStartsWith_disjoint (by decide : ("@@" : String).data = '@' :: ['@'])
    (by decide : ("+" : String).data = '+' :: []) (by decide) h

/-- A line carrying a hunk marker does not start with a minus. -/
theorem atat_not_minus {l : String} (h : pyStartsWith l "@@" = true) :
    pyStartsWith l "-" = false :=
  pyStartsWith_disjoint (by decide : ("@@" : String).data = '@' :: ['@'])
    (by decide : ("-" : String).data = '-' :: []) (by decide) h

/-- A line carrying a hunk marker is not a file header. -/
theorem atat_not_header {l : String} (h : pyStartsWith l "@@" = true) :
    isHeaderLine l = false := by
  unfold isHeaderLine
  rw [pyStartsWith_disjoint (by decide : ("@@" : String).data = '@' :: ['@'])
    (by decide : ("diff --git" : String).data = 'd' :: "iff --git".data)
    (by decide) h]
  rw [pyStartsWith_disjoint (by decide : ("@@" : String).data = '@' :: ['@'])
    (by decide : ("diff --cc" : String).data = 'd' :: "iff --cc".data)
    (by decide) h]
  rfl

/-- A file header does not carry a hunk marker. -/
theorem header_not_atat {l : String} (h : isHeaderLine l = true) :
    pyStartsWith l "@@" = false := by
  unfold isHeaderLine at h
  rcases Bool.or_eq_true_iff.mp h with h1 | h1
  · exact pyStartsWith_disjoint
      (by decide : ("diff --git" : String).data = 'd' :: "iff --git".data)
      (by decide : ("@@" : String).data = '@' :: ['@']) (by decide) h1
  · exact pyStartsWith_disjoint
      (by decide : ("diff --cc" : String).data = 'd' :: "iff --cc".data)
      (by decide : ("@@" : String).data = '@' :: ['@']) (by decide) h1

/-- Appending a fresh entry is found by lookup when the key was absent. -/
theorem alookup_append_of_none {β : Type} {d : List (String × β)}
    {p : String} (h : alookup d p = none) (v : β) :
    alookup (d ++ [(p, v)]) p = some v := by
  induction d with
  | nil => simp [alookup]
  | cons e rest ih =>
    obtain ⟨k, w⟩ := e
    by_cases hp : p = k
    · simp [alookup, hp] at h
    · simp only [alookup, hp, if_false, List.cons_append] at h ⊢
      exact ih h

/-- Appending an entry under a different key does not change a lookup. -/
theorem alookup_append_ne {β : Type} (d : List (String × β)) {p q : String}
    (hne : p ≠ q) (v : β) :
    alookup (d ++ [(q, v)]) p = alookup d p := by
  induction d with
  | nil => simp [alookup, hne]
  | cons e rest ih =>
    obtain ⟨k, w⟩ := e
    by_cases hp : p = k
    · simp [alookup, hp]
    · simp only [List.cons_append, alookup, hp, if_false]
      exact ih

/-- Lookup fails exactly when the key is absent. -/
theorem alookup_eq_none_iff {β : Type} {d : List (String × β)} {p : String} :
    alookup d p = none ↔ p ∉ d.map Prod.fst := by
  induction d with
  | nil => simp [alookup]
  | cons e rest ih =>
    obtain ⟨k, w⟩ := e
    by_cases hp : p = k
    · simp [alookup, hp]
    · simp [alookup, hp, ih, Ne.symm]

/-- A successful lookup yields a member of the association list. -/
theorem alookup_mem {β : Type} {d : List (String × β)} {p : String} {v : β}
    (h : alookup d p = some v) : (p, v) ∈ d := by
  induction d with
  | nil => simp [alookup] at h
  | cons e rest ih =>
    obtain ⟨k, w⟩ := e
    by_cases hp : p = k
    · subst hp
      simp [alookup] at h
      rw [← h]
      exact List.mem_cons_self _ _
    · simp only [alookup, hp, if_false] at h
      exact List.mem_cons_of_mem _ (ih h)

/-- With unique keys, membership determines the lookup result. -/
theorem alookup_of_mem_nodup {β : Type} {d : List (String × β)} {p : String}
    {v : β} (hn : (d.map Prod.fst).Nodup) (hm : (p, v) ∈ d) :
    alookup d p = some v := by
  induction d with
  | nil => simp at hm
  | cons e rest ih =>
    obtain ⟨k, w⟩ := e
    simp only [List.map_cons, List.nodup_cons] at hn
    rcases List.mem_cons.mp hm with h1 | h1
    · injection h1 with ha hb
      simp [alookup, ha, hb]
    · have hp : p ≠ k := by
        intro hh
        apply hn.1
        rw [← hh]
        exact List.mem_map.mpr ⟨(p, v), h1, rfl⟩
      simp only [alookup, hp, if_false]
      exact ih hn.2 h1

/-- Appending to one entry does not change the key list. -/
theorem appendLine_keys (d : List (String × List String)) (q l : String) :
    (appendLine d q l).map Prod.fst = d.map Prod.fst := by
  unfold appendLine
  rw [List.map_map]
  apply List.map_congr_left
  intro e _
  by_cases h : e.1 = q <;> simp [Function.comp, h]

/-- Unfolding equation of alookup on a cons cell. -/
theorem alookup_cons {β : Type} (k : String) (w : β)
    (rest : List (String × β)) (p : String) :
    alookup ((k, w) :: rest) p = if p = k then some w else alookup rest p := rfl

/-- Unfolding equation of appendLine on a cons cell. -/
theorem appendLine_cons (k : String) (w : List String)
    (rest : List (String × List String)) (q l : String) :
    appendLine ((k, w) :: rest) q l =
      (if k = q then (k, w ++ [l]) else (k, w)) :: appendLine rest q l := rfl

/-- Unfolding equation of the overwrite map on a cons cell. -/
theorem overwriteMap_cons {β : Type} (q : String) (w : β)
    (rest : List (String × β)) (k : String) (v : β) :
    ((q, w) :: rest).map (fun e => if e.1 = k then (k, v) else e) =
      (if q = k then (k, v) else (q, w)) ::
        rest.map (fun e => if e.1 = k then (k, v) else e) := rfl

/-- Appending to one entry does not change lookups at other keys. -/
theorem alookup_appendLine_ne {d : List (String × List String)}
    {p q l : String} (h : p ≠ q) :
    alookup (appendLine d q l) p = alookup d p := by
  induction d with
  | nil => rfl
  | cons f rest ih =>
    obtain ⟨k, w⟩ := f
    rw [appendLine_cons]
    by_cases hk : k = q
    · rw [if_pos hk, alookup_cons, alookup_cons]
      have hpk : p ≠ k := fun hh => h (hh.trans hk)
      rw [if_neg hpk, if_neg hpk]
      exact ih
    · rw [if_neg hk, alookup_cons, alookup_cons]
      by_cases hp : p = k
      · rw [if_pos hp, if_pos hp]
      · rw [if_neg hp, if_neg hp]
        exact ih

/-- Appending to the entry of a present key extends its line list. -/
theorem alookup_appendLine_self {d : List (String × List String)}
    {q l : String} {e : List String} (h : alookup d q = some e) :
    alookup (appendLine d q l) q = some (e ++ [l]) := by
  induction d with
  | nil => simp [alookup] at h
  | cons f rest ih =>
    obtain ⟨k, w⟩ := f
    rw [alookup_cons] at h
    rw [appendLine_cons]
    by_cases hq : q = k
    · rw [if_pos hq] at h
      injection h with h2
      rw [if_pos hq.symm, alookup_cons, if_pos hq, h2]
    · rw [if_neg hq] at h
      have hk : k ≠ q := fun hh => hq hh.symm
      rw [if_neg hk, alookup_cons, if_neg hq]
      exact ih h

/-- Overwriting the value of a present key is found by lookup. -/
theorem alookup_overwriteMap_isSome {β : Type} {d : List (String × β)}
    {k : String} (h : (alookup d k).isSome = true) (v : β) :
    alookup (d.map fun e => if e.1 = k then (k, v) else e) k = some v := by
  induction d with
  | nil => simp [alookup] at h
  | cons f rest ih =>
    obtain ⟨q, w⟩ := f
    rw [overwriteMap_cons]
    by_cases hq : q = k
    · rw [if_pos hq, alookup_cons, if_pos rfl]
    · rw [if_neg hq, alookup_cons]
      have hkq : k ≠ q := fun hh => hq hh.symm
      rw [if_neg hkq]
      rw [alookup_cons, if_neg hkq] at h
      exact ih h

/-- Overwriting the value of one key does not change other lookups. -/
theorem alookup_overwriteMap_ne {β : Type} {d : List (String × β)}
    {k p : String} (h : p ≠ k) (v : β) :
    alookup (d.map fun e => if e.1 = k then (k, v) else e) p = alookup d p := by
  induction d with
  | nil => rfl
  | cons f rest ih =>
    obtain ⟨q, w⟩ := f
    rw [overwriteMap_cons]
    by_cases hq : q = k
    · rw [if_pos hq, alookup_cons, alookup_cons, if_neg h]
      have hpq : p ≠ q := fun hh => h (hh.trans hq)
      rw [if_neg hpq]
      exact ih
    · rw [if_neg hq, alookup_cons, alookup_cons]
      by_cases hp : p = q
      · rw [if_pos hp, if_pos hp]
      · rw [if_neg hp, if_neg hp]
        exact ih

/-- Dict assignment makes the assigned value visible at its key. -/
theorem dictInsert_lookup_self {β : Type} (d : List (String × β))
    (k : String) (v : β) :
    alookup (dictInsert d k v) k = some v := by
  unfold dictInsert
  split
  case isTrue h => exact alookup_overwriteMap_isSome h v
  case isFalse h =>
    apply alookup_append_of_none
    cases hl : alookup d k with
    | none => rfl
    | some w => rw [hl] at h; simp at h

/-- Dict assignment does not change lookups at other keys. -/
theorem dictInsert_lookup_ne {β : Type} {d : List (String × β)}
    {k p : String} (h : p ≠ k) (v : β) :
    alookup (dictInsert d k v) p = alookup d p := by
  unfold dictInsert
  split
  case isTrue _ => exact alookup_overwriteMap_ne h v
  case isFalse _ => exact alookup_append_ne d h v

/-- Keys after a dict assignment are the old keys plus the new key. -/
theorem dictInsert_keys_mem {β : Type} {d : List (String × β)} {k : String}
    {v : β} (y : String) :
    y ∈ (dictInsert d k v).map Prod.fst ↔ y ∈ d.map Prod.fst ∨ y = k := by
  unfold dictInsert
  split
  case isTrue h =>
    have hkeys : ((d.map fun e => if e.1 = k then (k, v) else e).map Prod.fst)
        = d.map Prod.fst := by
      rw [List.map_map]
      apply List.map_congr_left
      intro e _
      by_cases h2 : e.1 = k <;> simp [Function.comp, h2]
    rw [hkeys]
    constructor
    · exact Or.inl
    · intro hor
      rcases hor with h1 | h1
      · exact h1
      · subst h1
        by_contra hy
        rw [← alookup_eq_none_iff] at hy
        rw [hy] at h
        simp at h
  case isFalse h =>
    simp [List.map_append]

/-- Membership through sorted insertion of a pair. -/
theorem mem_insPair {β : Type} {x y : String × β} {l : List (String × β)} :
    x ∈ insPair y l ↔ x = y ∨ x ∈ l := by
  induction l with
  | nil => simp [insPair]
  | cons e rest ih =>
    unfold insPair
    split
    · simp
    · rw [List.mem_cons, ih, List.mem_cons]
      tauto

/-- Sorting an association list preserves membership. -/
theorem mem_makeSortedDict {β : Type} {x : String × β}
    {d : List (String × β)} :
    x ∈ makeSortedDict d ↔ x ∈ d := by
  unfold makeSortedDict
  induction d with
  | nil => simp
  | cons e rest ih =>
    simp only [List.foldr_cons, mem_insPair, List.mem_cons]
    rw [ih]

/-- Membership through sorted insertion of a string. -/
theorem mem_insStr {x y : String} {l : List String} :
    x ∈ insStr y l ↔ x = y ∨ x ∈ l := by
  induction l with
  | nil => simp [insStr]
  | cons e rest ih =>
    unfold insStr
    split
    · simp
    · rw [List.mem_cons, ih, List.mem_cons]
      tauto

/-- Sorting a string list preserves membership. -/
theorem mem_sortStrings {x : String} {l : List String} :
    x ∈ sortStrings l ↔ x ∈ l := by
  unfold sortStrings
  induction l with
  | nil => simp
  | cons e rest ih =>
    simp only [List.foldr_cons, mem_insStr, List.mem_cons]
    rw [ih]

/-- Splitting of the sectioning loop over list concatenation. -/
theorem sectionsGo_append (xs ys : List String) (s : SectState) :
    sectionsGo (xs ++ ys) s =
      match sectionsGo xs s with
      | Except.error e => Except.error e
      | Except.ok s2 => sectionsGo ys s2 := by
  induction xs generalizing s with
  | nil => simp [sectionsGo]
  | cons l ls ih =>
    simp only [List.cons_append, sectionsGo]
    cases sectStep s l with
    | error e => rfl
    | ok s2 => exact ih s2

/-- Splitting of the line-accounting loop over list concatenation. -/
theorem linesGo_append (xs ys : List String) (s : LineState) :
    linesGo (xs ++ ys) s =
      match linesGo xs s with
      | Except.error e => Except.error e
      | Except.ok s2 => linesGo ys s2 := by
  induction xs generalizing s with
  | nil => simp [linesGo]
  | cons l ls ih =>
    simp only [List.cons_append, linesGo]
    cases lineStep s l with
    | error e => rfl
    | ok s2 => exact ih s2

/-- A false boolean equation is not a true one. -/
theorem bool_ff {b : Bool} (h : b = false) : ¬ (b = true) := by
  rw [h]
  exact Bool.false_ne_true

/-- A line starting with a plus does not start with a minus. -/
theorem plus_not_minus {l : String} (h : pyStartsWith l "+" = true) :
    pyStartsWith l "-" = false :=
  pyStartsWith_disjoint (by decide : ("+" : String).data = '+' :: [])
    (by decide : ("-" : String).data = '-' :: []) (by decide) h

/-- Branch equation of sectStep: a header line that parses. -/
theorem sectStep_header_ok {s : SectState} {line p : String}
    (hh : isHeaderLine line = true) (hp : parseSourceLine line = Except.ok p) :
    sectStep s line = Except.ok
      { dict := if (alookup s.dict p).isSome then s.dict
                else s.dict ++ [(p, [])]
        srcPath := some p
        foundHunk := false } := by
  unfold sectStep
  rw [if_pos hh, hp]

/-- Branch equation of sectStep: a header line that fails to parse. -/
theorem sectStep_header_err {s : SectState} {line e : String}
    (hh : isHeaderLine line = true)
    (hp : parseSourceLine line = Except.error e) :
    sectStep s line = Except.error e := by
  unfold sectStep
  rw [if_pos hh, hp]

/-- Branch equation of sectStep: a retained line inside a section. -/
theorem sectStep_append_branch {s : SectState} {line p : String}
    (hh : isHeaderLine line = false)
    (hc : (s.foundHunk || pyStartsWith line "@@") = true)
    (hs : s.srcPath = some p) :
    sectStep s line = Except.ok
      { dict := appendLine s.dict p line
        srcPath := some p
        foundHunk := true } := by
  unfold sectStep
  rw [if_neg (bool_ff hh), if_pos hc, hs]

/-- Branch equation of sectStep: a hunk marker with no source file. -/
theorem sectStep_none_atat {s : SectState} {line : String}
    (hh : isHeaderLine line = false) (hs : s.srcPath = none)
    (ha : pyStartsWith line "@@" = true) :
    sectStep s line =
      Except.error ("Hunk has no source file: " ++ sq ++ line ++ sq) := by
  unfold sectStep
  rw [if_neg (bool_ff hh), if_pos (by rw [ha, Bool.or_true]), hs, if_pos ha]

/-- Branch equation of sectStep: a line that is skipped. -/
theorem sectStep_skip {s : SectState} {line : String}
    (hh : isHeaderLine line = false)
    (hc : (s.foundHunk || pyStartsWith line "@@") = false) :
    sectStep s line = Except.ok s := by
  unfold sectStep
  rw [if_neg (bool_ff hh), if_neg (bool_ff hc)]

/-- The initial sectioning state satisfies the invariant. -/
theorem sectInv_init : SectInv sectInit := by
  refine ⟨List.nodup_nil, ?_, ?_, ?_⟩
  · intro e he
    simp [sectInit] at he
  · intro h
    simp [sectInit] at h
  · intro q hq
    simp [sectInit] at hq

/-- One sectioning step preserves the invariant. -/
theorem sectStep_inv {s : SectState} {line : String} {s2 : SectState}
    (hi : SectInv s) (hstep : sectStep s line = Except.ok s2) : SectInv s2 := by
  obtain ⟨hnd, hho, hfh, hsp⟩ := hi
  cases hhb : isHeaderLine line with
  | true =>
    cases hp : parseSourceLine line with
    | error e =>
      rw [sectStep_header_err hhb hp] at hstep
      exact absurd hstep (by simp)
    | ok p =>
      rw [sectStep_header_ok hhb hp] at hstep
      injection hstep with hs2
      subst hs2
      by_cases hpre : (alookup s.dict p).isSome = true
      · rw [if_pos hpre]
        refine ⟨hnd, hho, ?_, ?_⟩
        · intro hf
          exact absurd hf (by simp)
        · intro q hq
          injection hq with hq2
          rw [← hq2]
          exact hpre
      · have hnone : alookup s.dict p = none := by
          cases hl : alookup s.dict p with
          | none => rfl
          | some w => rw [hl] at hpre; simp at hpre
        rw [if_neg hpre]
        refine ⟨?_, ?_, ?_, ?_⟩
        · rw [List.map_append]
          apply List.Nodup.append hnd (by simp)
          intro y hy hy2
          simp at hy2
          rw [hy2] at hy
          exact (alookup_eq_none_iff.mp hnone) hy
        · intro e he
          rcases List.mem_append.mp he with h1 | h1
          · exact hho e h1
          · simp at h1
            rw [h1]
            intro hd tl hcon
            simp at hcon
        · intro hf
          exact absurd hf (by simp)
        · intro q hq
          injection hq with hq2
          rw [← hq2, alookup_append_of_none hnone]
          rfl
  | false =>
    cases hcb : (s.foundHunk || pyStartsWith line "@@") with
    | false =>
      rw [sectStep_skip hhb hcb] at hstep
      injection hstep with hs2
      rw [← hs2]
      exact ⟨hnd, hho, hfh, hsp⟩
    | true =>
      cases hsb : s.srcPath with
      | none =>
        cases hab : pyStartsWith line "@@" with
        | true =>
          rw [sectStep_none_atat hhb hsb hab] at hstep
          exact absurd hstep (by simp)
        | false =>
          have hf : s.foundHunk = true := by
            rw [hab, Bool.or_false] at hcb
            exact hcb
          obtain ⟨q, e0, hq, _, _⟩ := hfh hf
          rw [hsb] at hq
          exact absurd hq (by simp)
      | some p =>
        rw [sectStep_append_branch hhb hcb hsb] at hstep
        injection hstep with hs2
        subst hs2
        have hlk : (alookup s.dict p).isSome = true := hsp p hsb
        obtain ⟨e0, he0⟩ := Option.isSome_iff_exists.mp hlk
        refine ⟨?_, ?_, ?_, ?_⟩
        · rw [appendLine_keys]
          exact hnd
        · intro e2 he2
          unfold appendLine at he2
          rcases List.mem_map.mp he2 with ⟨⟨k0, v0⟩, he, heq⟩
          by_cases hk : k0 = p
          · have hite :
                (if (k0, v0).1 = p then ((k0, v0).1, (k0, v0).2 ++ [line])
                 else (k0, v0)) = (k0, v0 ++ [line]) := by
              simp [hk]
            rw [hite] at heq
            rw [← heq]
            intro hd tl hcon
            have hcon2 : v0 ++ [line] = hd :: tl := hcon
            cases v0 with
            | nil =>
              have hline : line = hd := by
                simpa using congrArg List.head? hcon2
              cases hab : pyStartsWith line "@@" with
              | true =>
                rw [← hline]
                exact hab
              | false =>
                have hf : s.foundHunk = true := by
                  rw [hab, Bool.or_false] at hcb
                  exact hcb
                obtain ⟨q, ee, hq, hlq, hne⟩ := hfh hf
                rw [hsb] at hq
                injection hq with hq2
                have hev : alookup s.dict p = some ([] : List String) := by
                  rw [← hk]
                  exact alookup_of_mem_nodup hnd he
                rw [← hq2, hev] at hlq
                injection hlq with hlq2
                exact absurd hlq2.symm hne
            | cons hd0 tl0 =>
              have hcon3 : hd0 :: (tl0 ++ [line]) = hd :: tl := hcon2
              injection hcon3 with hh1 _
              rw [← hh1]
              exact hho (k0, hd0 :: tl0) he hd0 tl0 rfl
          · have hite :
                (if (k0, v0).1 = p then ((k0, v0).1, (k0, v0).2 ++ [line])
                 else (k0, v0)) = (k0, v0) := by
              simp [hk]
            rw [hite] at heq
            rw [← heq]
            exact hho (k0, v0) he
        · intro _
          refine ⟨p, e0 ++ [line], rfl, alookup_appendLine_self he0, by simp⟩
        · intro q hq
          injection hq with hq2
          rw [← hq2, alookup_appendLine_self he0]
          rfl

/-- The sectioning loop preserves the invariant. -/
theorem sectionsGo_inv {ls : List String} {s sf : SectState}
    (hi : SectInv s) (h : sectionsGo ls s = Except.ok sf) : SectInv sf := by
  induction ls generalizing s with
  | nil =>
    simp [sectionsGo] at h
    rw [← h]
    exact hi
  | cons l t ih =>
    cases hst : sectStep s l with
    | error e => simp [sectionsGo, hst] at h
    | ok s2 =>
      have h2 : sectionsGo t s2 = Except.ok sf := by
        simpa [sectionsGo, hst] using h
      exact ih (sectStep_inv hi hst) h2

/-- A successful sectioning pass yields unique keys and line lists that
start at a hunk marker. -/
theorem parseSourceSections_inv {diffStr : String}
    {secs : List (String × List String)}
    (h : parseSourceSections diffStr = Except.ok secs) :
    (secs.map Prod.fst).Nodup ∧ ∀ e ∈ secs, headOk e.2 := by
  unfold parseSourceSections parseSourceSectionsL at h
  cases hg : sectionsGo (pySplitChar diffStr '\n') sectInit with
  | error e =>
    rw [hg] at h
    exact absurd h (by simp)
  | ok sf =>
    rw [hg] at h
    injection h with h2
    have hinv := sectionsGo_inv sectInv_init hg
    rw [← h2]
    exact ⟨hinv.1, hinv.2.1⟩

/-- Branch equation of lineStep: a hunk marker that parses. -/
theorem lineStep_atat_ok {s : LineState} {line : String} {n : Nat}
    (ha : pyStartsWith line "@@" = true)
    (hp : parseHunkLine line = Except.ok n) :
    lineStep s line =
      Except.ok { s with curNew := some n, curOld := some n } := by
  unfold lineStep
  rw [if_pos ha, hp]

/-- Branch equation of lineStep: a hunk marker that fails to parse. -/
theorem lineStep_atat_err {s : LineState} {line e : String}
    (ha : pyStartsWith line "@@" = true)
    (hp : parseHunkLine line = Except.error e) :
    lineStep s line = Except.error e := by
  unfold lineStep
  rw [if_pos ha, hp]

/-- Branch equation of lineStep: an added line with a set counter. -/
theorem lineStep_plus {s : LineState} {line : String} {n : Nat}
    (ha : pyStartsWith line "@@" = false)
    (hpl : pyStartsWith line "+" = true) (hc : s.curNew = some n) :
    lineStep s line =
      Except.ok { s with added := s.added ++ [n], curNew := some (n + 1) } := by
  unfold lineStep
  rw [if_neg (bool_ff ha), if_pos hpl, hc]

/-- Branch equation of lineStep: a deleted line with a set counter. -/
theorem lineStep_minus {s : LineState} {line : String} {n : Nat}
    (ha : pyStartsWith line "@@" = false)
    (hpl : pyStartsWith line "+" = false)
    (hm : pyStartsWith line "-" = true) (hc : s.curOld = some n) :
    lineStep s line =
      Except.ok
        { s with deleted := s.deleted ++ [n], curOld := some (n + 1) } := by
  unfold lineStep
  rw [if_neg (bool_ff ha), if_neg (bool_ff hpl), if_pos hm, hc]

/-- Branch equation of lineStep: a context line. -/
theorem lineStep_other {s : LineState} {line : String}
    (ha : pyStartsWith line "@@" = false)
    (hpl : pyStartsWith line "+" = false)
    (hm : pyStartsWith line "-" = false) :
    lineStep s line =
      Except.ok { s with curNew := s.curNew.map (· + 1),
                         curOld := s.curOld.map (· + 1) } := by
  unfold lineStep
  rw [if_neg (bool_ff ha), if_neg (bool_ff hpl), if_neg (bool_ff hm)]

/-- Once both counters are set, the line-accounting loop records one
added entry per plus line and one deleted entry per minus line. -/
theorem linesGo_count {ls : List String} {s sf : LineState}
    (hn : s.curNew.isSome = true) (ho : s.curOld.isSome = true)
    (h : linesGo ls s = Except.ok sf) :
    sf.added.length =
      s.added.length + (ls.filter (fun l => pyStartsWith l "+")).length ∧
    sf.deleted.length =
      s.deleted.length + (ls.filter (fun l => pyStartsWith l "-")).length := by
  induction ls generalizing s with
  | nil =>
    simp [linesGo] at h
    rw [← h]
    simp
  | cons l t ih =>
    cases hab : pyStartsWith l "@@" with
    | true =>
      cases hph : parseHunkLine l with
      | error e =>
        rw [show linesGo (l :: t) s =
            (match lineStep s l with
             | Except.error e => Except.error e
             | Except.ok s2 => linesGo t s2) from rfl,
          lineStep_atat_err hab hph] at h
        exact absurd h (by simp)
      | ok n =>
        have hst := lineStep_atat_ok (s := s) hab hph
        have h2 : linesGo t { s with curNew := some n, curOld := some n } =
            Except.ok sf := by
          rw [show linesGo (l :: t) s =
              (match lineStep s l with
               | Except.error e => Except.error e
               | Except.ok s2 => linesGo t s2) from rfl, hst] at h
          exact h
        have hr := ih (by simp) (by simp) h2
        rw [List.filter_cons, List.filter_cons]
        rw [atat_not_plus hab, atat_not_minus hab]
        simpa using hr
    | false =>
      cases hpl : pyStartsWith l "+" with
      | true =>
        obtain ⟨n, hcn⟩ := Option.isSome_iff_exists.mp hn
        have hst := lineStep_plus (s := s) hab hpl hcn
        have h2 : linesGo t
            { s with added := s.added ++ [n], curNew := some (n + 1) } =
            Except.ok sf := by
          rw [show linesGo (l :: t) s =
              (match lineStep s l with
               | Except.error e => Except.error e
               | Except.ok s2 => linesGo t s2) from rfl, hst] at h
          exact h
        have hr := ih (by simp) (by simpa using ho) h2
        simp only [List.length_append, List.length_cons, List.length_nil] at hr
        simp [List.filter_cons, hpl, plus_not_minus hpl]
        omega
      | false =>
        cases hm : pyStartsWith l "-" with
        | true =>
          obtain ⟨n, hcn⟩ := Option.isSome_iff_exists.mp ho
          have hst := lineStep_minus (s := s) hab hpl hm hcn
          have h2 : linesGo t
              { s with deleted := s.deleted ++ [n], curOld := some (n + 1) } =
              Except.ok sf := by
            rw [show linesGo (l :: t) s =
                (match lineStep s l with
                 | Except.error e => Except.error e
                 | Except.ok s2 => linesGo t s2) from rfl, hst] at h
            exact h
          have hr := ih (by simpa using hn) (by simp) h2
          simp only [List.length_append, List.length_cons, List.length_nil]
            at hr
          simp [List.filter_cons, hpl, hm]
          omega
        | false =>
          have hst := lineStep_other (s := s) hab hpl hm
          have h2 : linesGo t
              { s with curNew := s.curNew.map (· + 1),
                       curOld := s.curOld.map (· + 1) } = Except.ok sf := by
            rw [show linesGo (l :: t) s =
                (match lineStep s l with
                 | Except.error e => Except.error e
                 | Except.ok s2 => linesGo t s2) from rfl, hst] at h
            exact h
          obtain ⟨n, hcn⟩ := Option.isSome_iff_exists.mp hn
          obtain ⟨m, hcm⟩ := Option.isSome_iff_exists.mp ho
          have hr := ih (by simp [hcn]) (by simp [hcm]) h2
          simp at hr
          simp [List.filter_cons, hpl, hm]
          omega

/-- For a retained section list (which starts at a hunk marker when it
is nonempty), a successful line accounting records exactly one added
line number per plus line and one deleted line number per minus line. -/
theorem parseLines_counts {ls : List String} {a d : List Nat}
    (hho : headOk ls) (h : parseLines ls = Except.ok (a, d)) :
    a.length = (ls.filter (fun l => pyStartsWith l "+")).length ∧
    d.length = (ls.filter (fun l => pyStartsWith l "-")).length := by
  cases ls with
  | nil =>
    have h2 : Except.ok (([] : List Nat), ([] : List Nat)) =
        Except.ok (a, d) := h
    injection h2 with h3
    injection h3 with h4 h5
    rw [← h4, ← h5]
    simp
  | cons hd tl =>
    have hhd : pyStartsWith hd "@@" = true := hho hd tl rfl
    unfold parseLines at h
    cases hph : parseHunkLine hd with
    | error e =>
      rw [show linesGo (hd :: tl) lineInit =
          (match lineStep lineInit hd with
           | Except.error e => Except.error e
           | Except.ok s2 => linesGo tl s2) from rfl,
        lineStep_atat_err hhd hph] at h
      exact absurd h (by simp)
    | ok n =>
      have h2 : (match linesGo tl
            { added := ([] : List Nat), deleted := ([] : List Nat),
              curNew := some n, curOld := some n } with
          | Except.error e => Except.error e
          | Except.ok s => Except.ok (s.added, s.deleted)) =
          Except.ok (a, d) := by
        rw [show linesGo (hd :: tl) lineInit =
            (match lineStep lineInit hd with
             | Except.error e => Except.error e
             | Except.ok s2 => linesGo tl s2) from rfl,
          lineStep_atat_ok hhd hph] at h
        exact h
      cases hlg : linesGo tl
          { added := ([] : List Nat), deleted := ([] : List Nat),
            curNew := some n, curOld := some n } with
      | error e =>
        rw [hlg] at h2
        exact absurd h2 (by simp)
      | ok sf =>
        rw [hlg] at h2
        injection h2 with h3
        injection h3 with h4 h5
        have hr := linesGo_count (by simp) (by simp) hlg
        simp only [List.length_nil, Nat.zero_add] at hr
        rw [← h4, ← h5]
        simp [List.filter_cons, atat_not_plus hhd, atat_not_minus hhd]
        omega

/-- A non-marker line preserves the monotonicity invariant. -/
theorem lineStep_mono {s : LineState} {line : String} {s2 : LineState}
    (ha : pyStartsWith line "@@" = false) (hi : MonoInv s)
    (hstep : lineStep s line = Except.ok s2) : MonoInv s2 := by
  obtain ⟨h1, h2, h3, h4⟩ := hi
  cases hpl : pyStartsWith line "+" with
  | true =>
    cases hcn : s.curNew with
    | none =>
      have heq : lineStep s line = Except.ok s := by
        unfold lineStep
        rw [if_neg (bool_ff ha), if_pos hpl, hcn]
      rw [heq] at hstep
      injection hstep with he
      rw [← he]
      exact ⟨h1, h2, h3, h4⟩
    | some n =>
      rw [lineStep_plus ha hpl hcn] at hstep
      injection hstep with he
      rw [← he]
      refine ⟨?_, h2, ?_, ?_⟩
      · rw [List.chain'_append]
        refine ⟨h1, List.chain'_singleton n, ?_⟩
        intro x hx y hy
        simp at hy
        rw [← hy]
        exact h3 x (List.mem_of_mem_getLast? hx) n hcn
      · intro x hx m hm
        injection hm with hm2
        rcases List.mem_append.mp hx with hx1 | hx1
        · have := h3 x hx1 n hcn
          omega
        · simp at hx1
          omega
      · intro x hx m hm
        exact h4 x hx m hm
  | false =>
    cases hm : pyStartsWith line "-" with
    | true =>
      cases hco : s.curOld with
      | none =>
        have heq : lineStep s line = Except.ok s := by
          unfold lineStep
          rw [if_neg (bool_ff ha), if_neg (bool_ff hpl), if_pos hm, hco]
        rw [heq] at hstep
        injection hstep with he
        rw [← he]
        exact ⟨h1, h2, h3, h4⟩
      | some n =>
        rw [lineStep_minus ha hpl hm hco] at hstep
        injection hstep with he
        rw [← he]
        refine ⟨h1, ?_, ?_, ?_⟩
        · rw [List.chain'_append]
          refine ⟨h2, List.chain'_singleton n, ?_⟩
          intro x hx y hy
          simp at hy
          rw [← hy]
          exact h4 x (List.mem_of_mem_getLast? hx) n hco
        · intro x hx m hmm
          exact h3 x hx m hmm
        · intro x hx m hmm
          injection hmm with hm2
          rcases List.mem_append.mp hx with hx1 | hx1
          · have := h4 x hx1 n hco
            omega
          · simp at hx1
            omega
    | false =>
      rw [lineStep_other ha hpl hm] at hstep
      injection hstep with he
      rw [← he]
      refine ⟨h1, h2, ?_, ?_⟩
      · intro x hx m hmm
        cases hcn : s.curNew with
        | none =>
          rw [hcn] at hmm
          simp at hmm
        | some m0 =>
          rw [hcn] at hmm
          simp at hmm
          have := h3 x hx m0 hcn
          omega
      · intro x hx m hmm
        cases hco : s.curOld with
        | none =>
          rw [hco] at hmm
          simp at hmm
        | some m0 =>
          rw [hco] at hmm
          simp at hmm
          have := h4 x hx m0 hco
          omega

/-- The line-accounting loop preserves the monotonicity invariant over
marker-free lines. -/
theorem linesGo_mono {ls : List String} {s sf : LineState}
    (hb : ∀ l ∈ ls, pyStartsWith l "@@" = false) (hi : MonoInv s)
    (h : linesGo ls s = Except.ok sf) : MonoInv sf := by
  induction ls generalizing s with
  | nil =>
    simp [linesGo] at h
    rw [← h]
    exact hi
  | cons l t ih =>
    cases hst : lineStep s l with
    | error e => simp [linesGo, hst] at h
    | ok s2 =>
      have h2 : linesGo t s2 = Except.ok sf := by
        simpa [linesGo, hst] using h
      exact ih (fun x hx => hb x (List.mem_cons_of_mem _ hx))
        (lineStep_mono (hb l (List.mem_cons_self _ _)) hi hst) h2

/-- A step that is neither a header naming p nor an append for p does
not change the entry of p nor make p current. -/
theorem sectStep_no_touch {s : SectState} {l p : String} {s2 : SectState}
    (hnp : ∀ q, isHeaderLine l = true → parseSourceLine l = Except.ok q →
      q ≠ p)
    (hsrc : s.srcPath ≠ some p) (hstep : sectStep s l = Except.ok s2) :
    alookup s2.dict p = alookup s.dict p ∧ s2.srcPath ≠ some p := by
  cases hhb : isHeaderLine l with
  | true =>
    cases hq : parseSourceLine l with
    | error e =>
      rw [sectStep_header_err hhb hq] at hstep
      exact absurd hstep (by simp)
    | ok q =>
      have hqp : q ≠ p := hnp q hhb hq
      rw [sectStep_header_ok hhb hq] at hstep
      injection hstep with he
      rw [← he]
      constructor
      · by_cases hpre : (alookup s.dict q).isSome = true
        · rw [if_pos hpre]
        · rw [if_neg hpre]
          exact alookup_append_ne s.dict (Ne.symm hqp) []
      · intro hcon
        injection hcon with hc2
        exact hqp hc2
  | false =>
    cases hcb : (s.foundHunk || pyStartsWith l "@@") with
    | false =>
      rw [sectStep_skip hhb hcb] at hstep
      injection hstep with he
      rw [← he]
      exact ⟨rfl, hsrc⟩
    | true =>
      cases hsb : s.srcPath with
      | none =>
        cases hab : pyStartsWith l "@@" with
        | true =>
          rw [sectStep_none_atat hhb hsb hab] at hstep
          exact absurd hstep (by simp)
        | false =>
          have heq : sectStep s l = Except.ok { s with foundHunk := true } := by
            unfold sectStep
            rw [if_neg (bool_ff hhb), if_pos hcb, hsb, if_neg (bool_ff hab)]
          rw [heq] at hstep
          injection hstep with he
          rw [← he]
          exact ⟨rfl, hsrc⟩
      | some q =>
        have hqp : q ≠ p := fun hh => hsrc (by rw [hsb, hh])
        rw [sectStep_append_branch hhb hcb hsb] at hstep
        injection hstep with he
        rw [← he]
        refine ⟨alookup_appendLine_ne (Ne.symm hqp), ?_⟩
        intro hcon
        injection hcon with hc2
        exact hqp hc2

/-- The sectioning loop does not touch the entry of p while no header
names p. -/
theorem sectionsGo_no_touch {ls : List String} {s sf : SectState}
    {p : String}
    (hnp : ∀ l ∈ ls, ∀ q, isHeaderLine l = true →
      parseSourceLine l = Except.ok q → q ≠ p)
    (hsrc : s.srcPath ≠ some p) (h : sectionsGo ls s = Except.ok sf) :
    alookup sf.dict p = alookup s.dict p ∧ sf.srcPath ≠ some p := by
  induction ls generalizing s with
  | nil =>
    simp [sectionsGo] at h
    rw [← h]
    exact ⟨rfl, hsrc⟩
  | cons l t ih =>
    cases hst : sectStep s l with
    | error e => simp [sectionsGo, hst] at h
    | ok s2 =>
      have h2 : sectionsGo t s2 = Except.ok sf := by
        simpa [sectionsGo, hst] using h
      have hone := sectStep_no_touch
        (fun q hh hq => hnp l (List.mem_cons_self _ _) q hh hq) hsrc hst
      have hrest := ih (fun x hx => hnp x (List.mem_cons_of_mem _ hx))
        hone.2 h2
      exact ⟨hrest.1.trans hone.1, hrest.2⟩

/-- Joining a relative path onto the empty top level is the identity. -/
theorem osPathJoin_nil (b : String) : osPathJoin "" b = b := by
  unfold osPathJoin
  split
  · rfl
  · rw [if_pos rfl]

/-- Unfolding equation of buildDiffDict on a cons cell. -/
theorem buildDiffDict_cons (top src : String) (ls : List String)
    (rest : List (String × List String))
    (acc : List (String × (List Nat × List Nat))) :
    buildDiffDict top ((src, ls) :: rest) acc =
      match parseLines ls with
      | Except.error e => Except.error e
      | Except.ok pr =>
        buildDiffDict top rest (dictInsert acc (osPathJoin top src) pr) := rfl

/-- Sections whose keys all differ from p leave the entry of p in the
accumulator unchanged. -/
theorem buildDiffDict_lookup_preserve {secs : List (String × List String)}
    {acc d : List (String × (List Nat × List Nat))} {p : String}
    (hk : ∀ e ∈ secs, e.1 ≠ p)
    (hbd : buildDiffDict "" secs acc = Except.ok d) :
    alookup d p = alookup acc p := by
  induction secs generalizing acc with
  | nil =>
    simp [buildDiffDict] at hbd
    rw [← hbd]
  | cons e rest ih =>
    obtain ⟨src, ls⟩ := e
    rw [buildDiffDict_cons] at hbd
    cases hpl : parseLines ls with
    | error er =>
      rw [hpl] at hbd
      exact absurd hbd (by simp)
    | ok pr =>
      rw [hpl] at hbd
      have h1 := ih (fun x hx => hk x (List.mem_cons_of_mem _ hx)) hbd
      rw [h1, osPathJoin_nil]
      exact dictInsert_lookup_ne
        (fun hh => hk (src, ls) (List.mem_cons_self _ _) hh.symm) pr

/-- With unique section keys, the built dict maps p to the parsed value
of its section. -/
theorem buildDiffDict_lookup_found {secs : List (String × List String)}
    {acc d : List (String × (List Nat × List Nat))} {p : String}
    {ls : List String} {v : List Nat × List Nat}
    (hnd : (secs.map Prod.fst).Nodup)
    (hl : alookup secs p = some ls) (hpv : parseLines ls = Except.ok v)
    (hbd : buildDiffDict "" secs acc = Except.ok d) :
    alookup d p = some v := by
  induction secs generalizing acc with
  | nil => simp [alookup] at hl
  | cons e rest ih =>
    obtain ⟨src, ls0⟩ := e
    simp only [List.map_cons] at hnd
    rw [alookup_cons] at hl
    rw [buildDiffDict_cons] at hbd
    by_cases hp : p = src
    · rw [if_pos hp] at hl
      injection hl with hl2
      cases hple : parseLines ls0 with
      | error er =>
        rw [hl2, hpv] at hple
        exact absurd hple (by simp)
      | ok pr =>
        have hpr : pr = v := by
          rw [hl2, hpv] at hple
          injection hple with h6
          exact h6.symm
        rw [hple] at hbd
        have hnd2 : src ∉ rest.map Prod.fst := (List.nodup_cons.mp hnd).1
        have hrest : ∀ e ∈ rest, e.1 ≠ p := by
          intro e he hh
          apply hnd2
          rw [← hp, ← hh]
          exact List.mem_map.mpr ⟨e, he, rfl⟩
        rw [buildDiffDict_lookup_preserve hrest hbd, osPathJoin_nil, ← hp,
          dictInsert_lookup_self, hpr]
    · rw [if_neg hp] at hl
      cases hple : parseLines ls0 with
      | error er =>
        rw [hple] at hbd
        exact absurd hbd (by simp)
      | ok pr =>
        rw [hple] at hbd
        exact ih (List.nodup_cons.mp hnd).2 hl hbd

/-- Keys of the built dict are the accumulator keys plus the re-anchored
section keys. -/
theorem buildDiffDict_keys {top : String} {secs : List (String × List String)}
    {acc d : List (String × (List Nat × List Nat))}
    (hbd : buildDiffDict top secs acc = Except.ok d) (y : String) :
    y ∈ d.map Prod.fst ↔
      y ∈ acc.map Prod.fst ∨
        ∃ x, x ∈ secs.map Prod.fst ∧ osPathJoin top x = y := by
  induction secs generalizing acc with
  | nil =>
    simp [buildDiffDict] at hbd
    rw [← hbd]
    simp
  | cons e rest ih =>
    obtain ⟨src, ls⟩ := e
    rw [buildDiffDict_cons] at hbd
    cases hpl : parseLines ls with
    | error er =>
      rw [hpl] at hbd
      exact absurd hbd (by simp)
    | ok pr =>
      rw [hpl] at hbd
      rw [ih hbd, dictInsert_keys_mem]
      simp only [List.map_cons, List.mem_cons]
      constructor
      · intro hc
        rcases hc with (hc | hc) | hc
        · exact Or.inl hc
        · exact Or.inr ⟨src, Or.inl rfl, hc.symm⟩
        · rcases hc with ⟨x, hx, hxy⟩
          exact Or.inr ⟨x, Or.inr hx, hxy⟩
      · intro hc
        rcases hc with hc | ⟨x, hx | hx, hxy⟩
        · exact Or.inl (Or.inl hc)
        · rw [hx] at hxy
          exact Or.inl (Or.inr hxy.symm)
        · exact Or.inr ⟨x, hx, hxy⟩

/-- Folding dict assignments of a constant value over keys not equal to
p preserves the lookup at p. -/
theorem foldl_dictInsert_preserve {β : Type} (v : β) {t : List String}
    {p : String} (hnt : p ∉ t) (acc : List (String × β)) :
    alookup (t.foldl (fun a q => dictInsert a q v) acc) p = alookup acc p := by
  induction t generalizing acc with
  | nil => rfl
  | cons q t2 ih =>
    simp only [List.foldl_cons]
    have hq : p ≠ q := fun hh => hnt (hh ▸ List.mem_cons_self q t2)
    rw [ih (fun hh => hnt (List.mem_cons_of_mem _ hh))]
    exact dictInsert_lookup_ne hq v

/-- Folding dict assignments of a constant value maps every listed key
to that value. -/
theorem foldl_dictInsert_all {β : Type} (v : β) {paths : List String}
    {p : String} (hp : p ∈ paths) (acc : List (String × β)) :
    alookup (paths.foldl (fun a q => dictInsert a q v) acc) p = some v := by
  induction paths generalizing acc with
  | nil => simp at hp
  | cons q t ih =>
    simp only [List.foldl_cons]
    by_cases hpt : p ∈ t
    · exact ih hpt _
    · have hpq : p = q := by
        rcases List.mem_cons.mp hp with h | h
        · exact h
        · exact absurd h hpt
      subst hpq
      rw [foldl_dictInsert_preserve v hpt, dictInsert_lookup_self]

/-- Unfolding equation of the sectioning loop on a cons cell. -/
theorem sectionsGo_cons (l : String) (t : List String) (s : SectState) :
    sectionsGo (l :: t) s =
      match sectStep s l with
      | Except.error e => Except.error e
      | Except.ok s2 => sectionsGo t s2 := rfl

/-- Unfolding equation of the line-accounting loop on a cons cell. -/
theorem linesGo_cons (l : String) (t : List String) (s : LineState) :
    linesGo (l :: t) s =
      match lineStep s l with
      | Except.error e => Except.error e
      | Except.ok s2 => linesGo t s2 := rfl

/-- Lines that are neither headers nor hunk markers are skipped while
the hunk flag is unset. -/
theorem sectionsGo_skip {ls : List String} {s : SectState}
    (hf : s.foundHunk = false)
    (h : ∀ l ∈ ls, isHeaderLine l = false ∧ pyStartsWith l "@@" = false) :
    sectionsGo ls s = Except.ok s := by
  induction ls with
  | nil => rfl
  | cons l t ih =>
    have hstep := sectStep_skip (h l (List.mem_cons_self _ _)).1
      (by rw [hf, (h l (List.mem_cons_self _ _)).2]; rfl)
    rw [sectionsGo_cons, hstep]
    exact ih (fun x hx => h x (List.mem_cons_of_mem _ hx))

/-- Claim C1, counterexample: on the diff text of spec test 6 the parser
computes deleted = [3] (the minus line is at old position 3), not the
claimed deleted = [4]. -/
theorem c1_claim_counterexample :
    parseDiffStr "" spec6Text = Except.ok [("foo.py", ([2], [3]))] ∧
    (([2], [3]) : List Nat × List Nat) ≠ (([2], [4]) : List Nat × List Nat) :=
  ⟨rfl, by decide⟩

/-- Claim C1, amended: parsing the diff text of spec test 6 yields the
mapping from foo.py to added = [2] and deleted = [3]; the old-line
counter starts at the extracted new start 1, the two context lines
before the minus line advance it to 3, and plus lines do not advance
it. -/
theorem c1_spec6_parse :
    parseDiffStr "" spec6Text = Except.ok [("foo.py", ([2], [3]))] := rfl

/-- Claim C2, counterexample: a diff text the parser accepts in which
the hunk start lines decrease produces the added sequence [5, 1], which
is not strictly increasing. -/
theorem c2_monotonicity_counterexample :
    parseDiffStr "" hunkOrderText = Except.ok [("f", ([5, 1], []))] ∧
    ¬ List.Chain' (fun a b => a < b) [5, 1] := by
  refine ⟨rfl, ?_⟩
  intro h
  rw [List.chain'_cons] at h
  exact absurd h.1 (by omega)

/-- Claim C2, amended: within the lines contributed by a single hunk
(a hunk marker followed by marker-free body lines) the added and the
deleted sequences are each strictly increasing; across several hunks
the marker resets the counters and monotonicity can fail. -/
theorem c2_single_hunk_monotone (hl : String) (body : List String)
    (a d : List Nat) (hhl : pyStartsWith hl "@@" = true)
    (hb : ∀ l ∈ body, pyStartsWith l "@@" = false)
    (hok : parseLines (hl :: body) = Except.ok (a, d)) :
    List.Chain' (fun x y => x < y) a ∧ List.Chain' (fun x y => x < y) d := by
  unfold parseLines at hok
  cases hph : parseHunkLine hl with
  | error e =>
    rw [linesGo_cons, lineStep_atat_err hhl hph] at hok
    exact absurd hok (by simp)
  | ok n =>
    rw [linesGo_cons, lineStep_atat_ok hhl hph] at hok
    have hok2 : (match linesGo body
          { added := ([] : List Nat), deleted := ([] : List Nat),
            curNew := some n, curOld := some n } with
        | Except.error e => Except.error e
        | Except.ok s => Except.ok (s.added, s.deleted)) =
        Except.ok (a, d) := hok
    cases hlg : linesGo body
        { added := ([] : List Nat), deleted := ([] : List Nat),
          curNew := some n, curOld := some n } with
    | error e =>
      rw [hlg] at hok2
      exact absurd hok2 (by simp)
    | ok sf =>
      rw [hlg] at hok2
      injection hok2 with h3
      injection h3 with h4 h5
      have hmono := linesGo_mono hb
        (⟨List.chain'_nil, List.chain'_nil, by simp, by simp⟩ :
          MonoInv { added := ([] : List Nat), deleted := ([] : List Nat),
                    curNew := some n, curOld := some n }) hlg
      rw [← h4, ← h5]
      exact ⟨hmono.1, hmono.2.1⟩

/-- Claim C2, witness for the amended theorem at a concrete hunk. -/
theorem c2_single_hunk_monotone_witness :
    List.Chain' (fun x y => x < y) [1] ∧
    List.Chain' (fun x y => x < y) [2] :=
  c2_single_hunk_monotone "@@ -1,3 +1,4 @@" ["+a", " c", "-d"] [1] [2]
    (by decide) (by decide) (by decide)

/-- Claim C3: a hunk marker line occurring before any file header makes
the sectioning pass raise the error naming that line, and the whole
line-level parse returns no result but that same error. -/
theorem c3_hunk_before_header (diffStr : String) (pre post : List String)
    (hl : String)
    (hsplit : pySplitChar diffStr '\n' = pre ++ hl :: post)
    (hpre : ∀ l ∈ pre, isHeaderLine l = false ∧ pyStartsWith l "@@" = false)
    (hhl : pyStartsWith hl "@@" = true) :
    parseSourceSections diffStr =
      Except.error ("Hunk has no source file: " ++ sq ++ hl ++ sq) ∧
    ∀ top, parseDiffStr top diffStr =
      Except.error ("Hunk has no source file: " ++ sq ++ hl ++ sq) := by
  have h1 : parseSourceSections diffStr =
      Except.error ("Hunk has no source file: " ++ sq ++ hl ++ sq) := by
    unfold parseSourceSections parseSourceSectionsL
    rw [hsplit, sectionsGo_append, sectionsGo_skip rfl hpre]
    have herr : sectionsGo (hl :: post) sectInit =
        Except.error ("Hunk has no source file: " ++ sq ++ hl ++ sq) := by
      rw [sectionsGo_cons, sectStep_none_atat (atat_not_header hhl) rfl hhl]
    show (match sectionsGo (hl :: post) sectInit with
        | Except.error e => Except.error e
        | Except.ok s => Except.ok s.dict) =
      Except.error ("Hunk has no source file: " ++ sq ++ hl ++ sq)
    rw [herr]
  refine ⟨h1, ?_⟩
  intro top
  unfold parseDiffStr
  rw [h1]

/-- Claim C3, witness at a concrete diff text. -/
theorem c3_hunk_before_header_witness :
    parseSourceSections "junk\n@@ -1 +1 @@" =
      Except.error ("Hunk has no source file: " ++ sq ++ "@@ -1 +1 @@" ++ sq) :=
  (c3_hunk_before_header "junk\n@@ -1 +1 @@" ["junk"] [] "@@ -1 +1 @@"
    (by decide) (by decide) (by decide)).1

/-- Claim C4: every hunk marker line that parses to n resets both
running counters to n regardless of the previous state, and the
concrete two-hunk file yields added = [1, 11]. -/
theorem c4_hunk_reset :
    (∀ (s : LineState) (line : String) (n : Nat),
      pyStartsWith line "@@" = true → parseHunkLine line = Except.ok n →
      lineStep s line =
        Except.ok { s with curNew := some n, curOld := some n }) ∧
    parseDiffStr "" multiHunkText = Except.ok [("f.py", ([1, 11], []))] := by
  constructor
  · intro s line n ha hp
    exact lineStep_atat_ok ha hp
  · rfl

/-- Claim C4, witness: the second hunk marker resets both counters to
11 from the initial state. -/
theorem c4_hunk_reset_witness :
    lineStep lineInit "@@ -10,2 +11,3 @@" =
      Except.ok { lineInit with curNew := some 11, curOld := some 11 } :=
  c4_hunk_reset.1 lineInit "@@ -10,2 +11,3 @@" 11 (by decide) (by decide)

/-- Claim C5, counterexample: when a second header names the same path,
the path of a no-hunk section does not map to the empty change set. -/
theorem c5_no_hunk_counterexample :
    parseDiffStr "" dupPathText = Except.ok [("p", ([1], []))] ∧
    (([1], []) : List Nat × List Nat) ≠ (([], []) : List Nat × List Nat) :=
  ⟨rfl, by decide⟩

/-- Claim C5, amended: a recognized header for p followed by no hunk
marker before the next header or the end of the text still yields p as
a key of the parse result, mapped to the empty change set, provided no
other header of the text names p. -/
theorem c5_no_hunk_entry (diffStr : String) (pre mid post : List String)
    (hdr p : String) (res : List (String × (List Nat × List Nat)))
    (hsplit : pySplitChar diffStr '\n' = pre ++ hdr :: (mid ++ post))
    (hhdr : isHeaderLine hdr = true)
    (hp : parseSourceLine hdr = Except.ok p)
    (hmid : ∀ l ∈ mid, isHeaderLine l = false ∧ pyStartsWith l "@@" = false)
    (hpost : post = [] ∨ ∃ h2 t2, post = h2 :: t2 ∧ isHeaderLine h2 = true)
    (hnodup : ∀ l ∈ pre ++ post, isHeaderLine l = true →
      parseSourceLine l ≠ Except.ok p)
    (hok : parseDiffStr "" diffStr = Except.ok res) :
    (p, (([] : List Nat), ([] : List Nat))) ∈ res := by
  unfold parseDiffStr at hok
  cases hsecs : parseSourceSections diffStr with
  | error e =>
    rw [hsecs] at hok
    exact absurd hok (by simp)
  | ok secs =>
    rw [hsecs] at hok
    have hok1 : (match buildDiffDict "" secs [] with
        | Except.error e => Except.error e
        | Except.ok d => Except.ok (makeSortedDict d)) =
        Except.ok res := hok
    cases hbd : buildDiffDict "" secs [] with
    | error e =>
      rw [hbd] at hok1
      exact absurd hok1 (by simp)
    | ok dd =>
      rw [hbd] at hok1
      injection hok1 with hres
      have hnd := (parseSourceSections_inv hsecs).1
      have hsl : alookup secs p = some [] := by
        unfold parseSourceSections parseSourceSectionsL at hsecs
        cases hg : sectionsGo (pySplitChar diffStr '\n') sectInit with
        | error e =>
          rw [hg] at hsecs
          exact absurd hsecs (by simp)
        | ok sf =>
          rw [hg] at hsecs
          injection hsecs with hsecs2
          rw [hsplit, sectionsGo_append] at hg
          cases hg1 : sectionsGo pre sectInit with
          | error e =>
            rw [hg1] at hg
            exact absurd hg (by simp)
          | ok s0 =>
            rw [hg1] at hg
            have hg2 : sectionsGo (hdr :: (mid ++ post)) s0 =
                Except.ok sf := hg
            have hprent := sectionsGo_no_touch (p := p)
              (fun l hli q hh hq hqp =>
                hnodup l (List.mem_append_left _ hli) hh
                  (by rw [← hqp]; exact hq))
              (by simp [sectInit]) hg1
            have hlp0 : alookup s0.dict p = none := by
              rw [hprent.1]
              rfl
            rw [sectionsGo_cons, sectStep_header_ok hhdr hp] at hg2
            have hcond : (if (alookup s0.dict p).isSome then s0.dict
                else s0.dict ++ [(p, [])]) = s0.dict ++ [(p, [])] := by
              rw [hlp0]
              rfl
            rw [hcond] at hg2
            have hg3 : sectionsGo (mid ++ post)
                { dict := s0.dict ++ [(p, [])], srcPath := some p,
                  foundHunk := false } = Except.ok sf := hg2
            rw [sectionsGo_append, sectionsGo_skip rfl hmid] at hg3
            have hg4 : sectionsGo post
                { dict := s0.dict ++ [(p, [])], srcPath := some p,
                  foundHunk := false } = Except.ok sf := hg3
            have hl1 : alookup (s0.dict ++ [(p, [])]) p = some [] :=
              alookup_append_of_none hlp0 []
            rcases hpost with hpe | ⟨h2, t2, hpe, hh2⟩
            · rw [hpe] at hg4
              have hg5 : Except.ok
                  { dict := s0.dict ++ [(p, [])], srcPath := some p,
                    foundHunk := false } = Except.ok sf := hg4
              injection hg5 with hg6
              rw [← hsecs2, ← hg6]
              exact hl1
            · rw [hpe] at hg4
              rw [sectionsGo_cons] at hg4
              cases hq2 : parseSourceLine h2 with
              | error e =>
                rw [sectStep_header_err hh2 hq2] at hg4
                exact absurd hg4 (by simp)
              | ok q =>
                have hqp : q ≠ p := by
                  intro hh
                  exact hnodup h2
                    (List.mem_append_right _
                      (by rw [hpe]; exact List.mem_cons_self h2 t2))
                    hh2 (hh ▸ hq2)
                rw [sectStep_header_ok hh2 hq2] at hg4
                have hl2 : alookup
                    (if (alookup (s0.dict ++ [(p, [])]) q).isSome then
                      s0.dict ++ [(p, [])]
                     else (s0.dict ++ [(p, [])]) ++ [(q, [])]) p =
                    some [] := by
                  by_cases hqs :
                      (alookup (s0.dict ++ [(p, [])]) q).isSome = true
                  · rw [if_pos hqs]
                    exact hl1
                  · rw [if_neg hqs]
                    rw [alookup_append_ne _ (Ne.symm hqp) []]
                    exact hl1
                have hg5 : sectionsGo t2
                    { dict := if (alookup (s0.dict ++ [(p, [])]) q).isSome
                        then s0.dict ++ [(p, [])]
                        else (s0.dict ++ [(p, [])]) ++ [(q, [])],
                      srcPath := some q, foundHunk := false } =
                    Except.ok sf := hg4
                have hnt := sectionsGo_no_touch (p := p)
                  (fun l hli q2 hh hq hqp2 =>
                    hnodup l
                      (List.mem_append_right _
                        (by rw [hpe]; exact List.mem_cons_of_mem _ hli))
                      hh (by rw [← hqp2]; exact hq))
                  (by
                    intro hcon
                    have hcon2 : some q = some p := hcon
                    injection hcon2 with hc
                    exact hqp hc) hg5
                rw [← hsecs2, hnt.1]
                exact hl2
      have hdl : alookup dd p = some (([] : List Nat), ([] : List Nat)) :=
        buildDiffDict_lookup_found hnd hsl rfl hbd
      rw [← hres]
      exact mem_makeSortedDict.mpr (alookup_mem hdl)

/-- Claim C5, witness: a no-hunk section for p followed by a section of
another path leaves p mapped to the empty change set. -/
theorem c5_no_hunk_entry_witness :
    ("p", (([] : List Nat), ([] : List Nat))) ∈
      [("p", (([] : List Nat), ([] : List Nat))),
       ("q", ([1], ([] : List Nat)))] :=
  c5_no_hunk_entry "diff --git a/p b/p\ndiff --git a/q b/q\n@@ -1,1 +1,1 @@\n+x"
    [] [] ["diff --git a/q b/q", "@@ -1,1 +1,1 @@", "+x"]
    "diff --git a/p b/p" "p"
    [("p", (([] : List Nat), ([] : List Nat))),
     ("q", ([1], ([] : List Nat)))]
    (by decide) (by decide) (by decide) (by decide)
    (Or.inr ⟨"diff --git a/q b/q", ["@@ -1,1 +1,1 @@", "+x"], rfl, by decide⟩)
    (by decide) rfl

/-- Sorting an association list preserves its key set. -/
theorem mem_keys_makeSortedDict {β : Type} {d : List (String × β)}
    {y : String} :
    y ∈ (makeSortedDict d).map Prod.fst ↔ y ∈ d.map Prod.fst := by
  constructor
  · intro hy
    rcases List.mem_map.mp hy with ⟨e, he, hey⟩
    exact List.mem_map.mpr ⟨e, mem_makeSortedDict.mp he, hey⟩
  · intro hy
    rcases List.mem_map.mp hy with ⟨e, he, hey⟩
    exact List.mem_map.mpr ⟨e, mem_makeSortedDict.mpr he, hey⟩

/-- Claim C6, counterexample: the file-only query filters by the scope
path while the line-level query does not, so a file outside the scope
appears only among the line-level keys. -/
theorem c6_name_listing_counterexample :
    gitFilesQuery "/repo" "/repo/sub" ("other/x.py" ++ nulSep) = [] ∧
    parseDiffStr "/repo" "diff --git a/other/x.py b/other/x.py" =
      Except.ok [("/repo/other/x.py", ([], []))] ∧
    ("/repo/other/x.py" : String) ∉ ([] : List String) :=
  ⟨rfl, rfl, by simp⟩

/-- Claim C6, amended: when the name-only output lists exactly the
section paths of the full diff and every re-anchored section path falls
under the queried scope, the set of paths of the file-only query equals
the set of keys of the line-level query. -/
theorem c6_files_vs_file_lines (top scope output diffText : String)
    (secs : List (String × List String))
    (res : List (String × (List Nat × List Nat)))
    (hsecs : parseSourceSections diffText = Except.ok secs)
    (hres : parseDiffStr top diffText = Except.ok res)
    (hnames : ∀ x : String,
      (x ∈ pySplitChar output (Char.ofNat 0) ∧ x ≠ "") ↔
        x ∈ secs.map Prod.fst)
    (hscope : ∀ s ∈ secs.map Prod.fst,
      pyStartsWith (osPathJoin top s) scope = true) :
    ∀ y, y ∈ gitFilesQuery top scope output ↔ y ∈ res.map Prod.fst := by
  intro y
  unfold parseDiffStr at hres
  rw [hsecs] at hres
  have hres1 : (match buildDiffDict top secs [] with
      | Except.error e => Except.error e
      | Except.ok d => Except.ok (makeSortedDict d)) = Except.ok res := hres
  cases hbd : buildDiffDict top secs [] with
  | error e =>
    rw [hbd] at hres1
    exact absurd hres1 (by simp)
  | ok dd =>
    rw [hbd] at hres1
    injection hres1 with hres2
    have hkeys := buildDiffDict_keys hbd y
    unfold gitFilesQuery
    rw [List.mem_filter]
    constructor
    · rintro ⟨hy1, hy2⟩
      rcases List.mem_map.mp hy1 with ⟨x, hx, hxy⟩
      rw [mem_sortStrings, List.mem_dedup, List.mem_filter] at hx
      have hxs : x ∈ List.map Prod.fst secs :=
        (hnames x).mp ⟨hx.1, by simpa using hx.2⟩
      rw [← hres2, mem_keys_makeSortedDict, hkeys]
      exact Or.inr ⟨x, hxs, hxy⟩
    · intro hy
      rw [← hres2, mem_keys_makeSortedDict, hkeys] at hy
      rcases hy with hy | ⟨x, hx, hxy⟩
      · simp at hy
      · refine ⟨?_, ?_⟩
        · apply List.mem_map.mpr
          refine ⟨x, ?_, hxy⟩
          rw [mem_sortStrings, List.mem_dedup, List.mem_filter]
          have hx2 := (hnames x).mpr hx
          exact ⟨hx2.1, by simpa using hx2.2⟩
        · rw [← hxy]
          exact hscope x hx

/-- Claim C6, witness at the scope equal to the top level. -/
theorem c6_files_vs_file_lines_witness :
    ("/r/a.py" ∈ gitFilesQuery "/r" "/r" ("a.py" ++ nulSep)) ↔
      "/r/a.py" ∈
        ([("/r/a.py", (([] : List Nat), ([] : List Nat)))].map Prod.fst) :=
  c6_files_vs_file_lines "/r" "/r" ("a.py" ++ nulSep)
    "diff --git a/a.py b/a.py" [("a.py", [])]
    [("/r/a.py", (([] : List Nat), ([] : List Nat)))]
    rfl rfl
    (by
      intro x
      show (x ∈ ["a.py", ""] ∧ x ≠ "") ↔ x ∈ ["a.py"]
      constructor
      · rintro ⟨hx, hne⟩
        rcases List.mem_cons.mp hx with h | h
        · simp [h]
        · rcases List.mem_cons.mp h with h2 | h2
          · exact absurd h2 hne
          · simp at h2
      · intro hx
        have hx2 : x = "a.py" := by simpa using hx
        subst hx2
        exact ⟨by simp, by decide⟩)
    (by decide) "/r/a.py"

/-- Claim C7, counterexample: when the single plus group is the empty
digit run, the raised message names the empty group rather than the
offending line, which it does not contain. -/
theorem c7_message_counterexample :
    parseHunkLine "@@ + @@" =
      Except.error ("Could not parse " ++ sq ++ sq ++ " as a line number") ∧
    isInfixL ("@@ + @@").data
      ("Could not parse " ++ sq ++ sq ++ " as a line number").data = false :=
  ⟨rfl, by decide⟩

/-- Claim C7, amended: for a hunk marker line, the new start is the
digit run of the single plus group of the text between the first pair
of marker delimiters, both counters are set to it; a parse error is
raised exactly when that run is empty or there is not exactly one plus
group, naming the line in the latter case and the group in the former. -/
theorem c7_hunk_line (line c0 info : String) (rest : List String)
    (hstart : pyStartsWith line "@@" = true)
    (hsplit : pySplitAtAt line = c0 :: info :: rest) :
    (∀ g, findPlusGroups info = [g] → g ≠ "" →
      parseHunkLine line = Except.ok (digitsToNat g) ∧
      ∀ s : LineState, lineStep s line = Except.ok
        { s with curNew := some (digitsToNat g),
                 curOld := some (digitsToNat g) }) ∧
    (∀ g, findPlusGroups info = [g] → g = "" →
      parseHunkLine line =
        Except.error ("Could not parse " ++ sq ++ g ++ sq ++
          " as a line number")) ∧
    ((findPlusGroups info).length ≠ 1 →
      parseHunkLine line =
        Except.error
          ("Could not find start of hunk in line " ++ sq ++ line ++ sq)) := by
  have hph : parseHunkLine line =
      match findPlusGroups info with
      | [g] =>
        if g = "" then
          Except.error ("Could not parse " ++ sq ++ g ++ sq ++
            " as a line number")
        else Except.ok (digitsToNat g)
      | _ =>
        Except.error
          ("Could not find start of hunk in line " ++ sq ++ line ++ sq) := by
    unfold parseHunkLine
    rw [hsplit]
  refine ⟨?_, ?_, ?_⟩
  · intro g hg hne
    have hok : parseHunkLine line = Except.ok (digitsToNat g) := by
      rw [hph, hg]
      show (if g = "" then
          Except.error ("Could not parse " ++ sq ++ g ++ sq ++
            " as a line number")
        else Except.ok (digitsToNat g)) = Except.ok (digitsToNat g)
      rw [if_neg hne]
    exact ⟨hok, fun s => lineStep_atat_ok hstart hok⟩
  · intro g hg hge
    rw [hph, hg]
    show (if g = "" then
        Except.error ("Could not parse " ++ sq ++ g ++ sq ++
          " as a line number")
      else Except.ok (digitsToNat g)) =
      Except.error ("Could not parse " ++ sq ++ g ++ sq ++
        " as a line number")
    rw [if_pos hge]
  · intro hlen
    rw [hph]
    cases hfg : findPlusGroups info with
    | nil => rfl
    | cons g t =>
      cases t with
      | nil =>
        exact absurd (by rw [hfg]; rfl :
          (findPlusGroups info).length = 1) hlen
      | cons g2 t2 => rfl

/-- Claim C7, witness at a well-formed hunk marker line. -/
theorem c7_hunk_line_witness :
    parseHunkLine "@@ -1,3 +1,4 @@" = Except.ok 1 :=
  ((c7_hunk_line "@@ -1,3 +1,4 @@" "" " -1,3 +1,4 " [""] (by decide)
    (by decide)).1 "1" (by decide) (by decide)).1

/-- Claim C8: when the git probe reports not-a-repository (and the hg
stub always does), the selection loop keeps the no-history provider,
and each of its three line-level queries maps every discovered file to
the sentinel added list [-1] (not a valid 1-based line number) paired
with the synthetic deleted range of 100000 entries. -/
theorem c8_no_vcs_fallback (gitIsRepo : Bool) (paths : List String)
    (hgit : gitIsRepo = false) :
    selectDiffTool gitIsRepo = some VcsKind.noVcs ∧
    (∀ p ∈ paths,
      alookup (noDiffCommitedFileLines paths) p =
        some ([(-1 : Int)], List.range 100000) ∧
      alookup (noDiffStagedFileLines paths) p =
        some ([(-1 : Int)], List.range 100000) ∧
      alookup (noDiffUnstagedFileLines paths) p =
        some ([(-1 : Int)], List.range 100000)) ∧
    ([(-1 : Int)].length = 1 ∧ (-1 : Int) < 1) ∧
    (List.range 100000).length = 100000 := by
  refine ⟨?_, ?_, ⟨rfl, by decide⟩, List.length_range 100000⟩
  · rw [hgit]
    rfl
  · intro p hp
    exact ⟨foldl_dictInsert_all _ hp [], foldl_dictInsert_all _ hp [],
      foldl_dictInsert_all _ hp []⟩

/-- Claim C8, witness at one discovered file. -/
theorem c8_no_vcs_fallback_witness :
    selectDiffTool false = some VcsKind.noVcs ∧
    alookup (noDiffCommitedFileLines ["a.py"]) "a.py" =
      some ([(-1 : Int)], List.range 100000) := by
  have h := c8_no_vcs_fallback false ["a.py"] rfl
  exact ⟨h.1, (h.2.1 "a.py" (by simp)).1⟩

/-- Claim C9: in every per-file list produced by the sectioning pass, a
line starting with a plus or a minus is preceded by a line starting
with the hunk marker, and the line accounting of such a list records
exactly one added entry per plus line and one deleted entry per minus
line, so the defensive checks drop nothing. -/
theorem c9_sections_safe (diffStr : String)
    (secs : List (String × List String))
    (hsecs : parseSourceSections diffStr = Except.ok secs) :
    ∀ p ls, (p, ls) ∈ secs →
      (∀ pre2 l post2, ls = pre2 ++ l :: post2 →
        (pyStartsWith l "+" = true ∨ pyStartsWith l "-" = true) →
        ∃ hd ∈ pre2, pyStartsWith hd "@@" = true) ∧
      (∀ a d, parseLines ls = Except.ok (a, d) →
        a.length = (ls.filter (fun l => pyStartsWith l "+")).length ∧
        d.length = (ls.filter (fun l => pyStartsWith l "-")).length) := by
  intro p ls hm
  have hinv := parseSourceSections_inv hsecs
  have hho : headOk ls := hinv.2 (p, ls) hm
  constructor
  · intro pre2 l post2 hdecomp hpm
    cases pre2 with
    | nil =>
      have hl : pyStartsWith l "@@" = true :=
        hho l post2 (by simpa using hdecomp)
      rcases hpm with hp | hp
      · rw [atat_not_plus hl] at hp
        exact absurd hp (by simp)
      · rw [atat_not_minus hl] at hp
        exact absurd hp (by simp)
    | cons hd0 pre2t =>
      have hl : pyStartsWith hd0 "@@" = true :=
        hho hd0 (pre2t ++ l :: post2) (by simpa using hdecomp)
      exact ⟨hd0, List.mem_cons_self _ _, hl⟩
  · intro a d hpl
    exact parseLines_counts hho hpl

/-- Claim C9, witness: in the retained list of spec test 6 the plus
line is preceded by the hunk marker. -/
theorem c9_sections_safe_witness :
    ∃ hd ∈ ["@@ -1,3 +1,4 @@", " line1"], pyStartsWith hd "@@" = true :=
  ((c9_sections_safe spec6Text
      [("foo.py",
        ["@@ -1,3 +1,4 @@", " line1", "+line2", " line3", "-line4",
         " line5"])] rfl) "foo.py"
    ["@@ -1,3 +1,4 @@", " line1", "+line2", " line3", "-line4", " line5"]
    (by simp)).1
    ["@@ -1,3 +1,4 @@", " line1"] "+line2" [" line3", "-line4", " line5"]
    (by decide) (Or.inl (by decide))

/-- Claim C10: a header for an already-present path keeps the existing
entry and its collected lines unchanged (only making the path current
again), and a concrete text with two sections for p accumulates the
lines of both sections in text order. -/
theorem c10_duplicate_header :
    (∀ (s : SectState) (hdr p : String) (ls0 : List String),
      isHeaderLine hdr = true → parseSourceLine hdr = Except.ok p →
      alookup s.dict p = some ls0 →
      sectStep s hdr = Except.ok
        { dict := s.dict, srcPath := some p, foundHunk := false }) ∧
    parseDiffStr "" dupPathHunksText =
      Except.ok [("p", ([1, 5], [])), ("q", ([1], []))] := by
  constructor
  · intro s hdr p ls0 hh hp hl
    rw [sectStep_header_ok hh hp]
    have hcond : (alookup s.dict p).isSome = true := by
      rw [hl]
      rfl
    rw [if_pos hcond]
  · rfl

/-- Claim C10, witness: a repeated header for p leaves the collected
lines of p untouched. -/
theorem c10_duplicate_header_witness :
    sectStep { dict := [("p", ["x"])], srcPath := none, foundHunk := false }
        "diff --git a/p b/p" =
      Except.ok { dict := [("p", ["x"])], srcPath := some "p",
                  foundHunk := false } :=
  c10_duplicate_header.1
    { dict := [("p", ["x"])], srcPath := none, foundHunk := false }
    "diff --git a/p b/p" "p" ["x"] (by decide) (by decide) (by decide)

end Ciocheck
